import Mathlib

/-!
Verification of the BST test-fixture generator (`gen-test.py`).

The script builds random valid binary search trees over employee records
keyed by `(department, id_in_department)`, optionally corrupts them by
swapping two node payloads, serializes them level by level, and writes
fixture files.  This file embeds the script's data model and operations as
Lean definitions and proves the specified properties about them.

Modelling conventions:
* Python `None` children are the `Tree.leaf` constructor; a Python `Node`
  is `Tree.node`.
* Python's pseudo-random generator is modelled as a stream of naturals
  consumed one draw at a time; where a theorem quantifies over all possible
  random choices (shuffle orders, sampled swap positions), the choice is a
  parameter constrained by the guarantee of the sampling primitive.
* Python string comparison is code-point lexicographic, embedded as the
  lexicographic order on `String.data : List Char`.
-/

namespace GenTest

/-! ## Configuration constants (`CONFIGURATION` block of the script) -/

def START_INDEX : Nat := 9

def NUM_VALID : Nat := 3

def NUM_INVALID : Nat := 3

def EMPLOYEE_RANGE : Nat × Nat := (20, 30)

def SPECIAL_RANGE : Nat × Nat := (200, 300)

def SEED : Nat := 123

def DEPARTMENTS : List String :=
  ["HR", "Finance", "Engineering", "Marketing", "Sales", "IT", "Management"]

def JOB_TITLES : List String :=
  ["Junior", "Midlevel", "Senior", "Director", "Executive", "God"]

/-! ## Record model (`class Employee`) -/

/-- Payload stored at each tree node (`class Employee`). -/
structure Employee where
  name : String
  department : String
  id_in_department : Nat
  job_title : String
  salary : Nat
deriving DecidableEq, Repr, Inhabited

/-- `Employee.key`: the composite ordering key `(department, id_in_department)`. -/
def Employee.key (e : Employee) : String × Nat :=
  (e.department, e.id_in_department)

/-- `Employee.__str__`: the comma-separated record line. -/
def Employee.str (e : Employee) : String :=
  e.name ++ "," ++ e.department ++ "," ++ toString e.id_in_department ++ ","
    ++ e.job_title ++ "," ++ toString e.salary

/-- Python `<` on key tuples: lexicographic comparison, strings compared by
code points (the order on `String.data`). -/
def keyLt (a b : String × Nat) : Prop :=
  a.1.data < b.1.data ∨ (a.1 = b.1 ∧ a.2 < b.2)

instance (a b : String × Nat) : Decidable (keyLt a b) := by
  unfold keyLt; exact inferInstance

theorem keyLt_irrefl (a : String × Nat) : ¬ keyLt a a := by
  rintro (h | ⟨-, h⟩)
  · exact lt_irrefl _ h
  · exact lt_irrefl _ h

theorem keyLt_asymm {a b : String × Nat} (h : keyLt a b) : ¬ keyLt b a := by
  rcases h with h | ⟨he, h⟩ <;> rintro (h' | ⟨he', h'⟩)
  · exact lt_asymm h h'
  · exact absurd h (by rw [he']; exact lt_irrefl _)
  · exact absurd h' (by rw [he]; exact lt_irrefl _)
  · exact lt_asymm h h'

theorem keyLt_trans {a b c : String × Nat} (hab : keyLt a b) (hbc : keyLt b c) :
    keyLt a c := by
  rcases hab with h | ⟨he, h⟩ <;> rcases hbc with h' | ⟨he', h'⟩
  · exact Or.inl (lt_trans h h')
  · exact Or.inl (by rwa [← he'])
  · exact Or.inl (by rwa [he])
  · exact Or.inr ⟨he.trans he', lt_trans h h'⟩

theorem string_eq_of_data_eq {a b : String} (h : a.data = b.data) : a = b := by
  cases a; cases b; exact congrArg String.mk h

/-- Distinct keys are comparable in one direction or the other. -/
theorem keyLt_connex {a b : String × Nat} (hne : a ≠ b) : keyLt a b ∨ keyLt b a := by
  rcases lt_trichotomy a.1.data b.1.data with h | h | h
  · exact Or.inl (Or.inl h)
  · have hs : a.1 = b.1 := string_eq_of_data_eq h
    rcases Nat.lt_trichotomy a.2 b.2 with h2 | h2 | h2
    · exact Or.inl (Or.inr ⟨hs, h2⟩)
    · exact absurd (Prod.ext hs h2) hne
    · exact Or.inr (Or.inr ⟨hs.symm, h2⟩)
  · exact Or.inr (Or.inl h)

/-! ## Tree model (`class Node`, with `None` as `leaf`) -/

/-- Binary tree of employee payloads; `leaf` is Python's `None` reference. -/
inductive Tree where
  | leaf : Tree
  | node (emp : Employee) (left right : Tree) : Tree
deriving DecidableEq, Repr, Inhabited

/-- Number of nodes of a tree. -/
def Tree.size : Tree → Nat
  | .leaf => 0
  | .node _ l r => l.size + r.size + 1

/-- `insert_node(root, emp)`: standard BST insertion; strictly smaller keys go
left, all other keys go right. -/
def insert_node : Tree → Employee → Tree
  | .leaf, emp => .node emp .leaf .leaf
  | .node e l r, emp =>
    if keyLt emp.key e.key then .node e (insert_node l emp) r
    else .node e l (insert_node r emp)

/-- `build_valid_bst_from_list(employees, rng)`: the `rng.shuffle` is
abstracted away, the argument being the already-shuffled insertion order;
theorems quantify over all permutations of the record set. -/
def build_valid_bst_from_list (shuffled : List Employee) : Tree :=
  shuffled.foldl insert_node .leaf

/-- `collect_nodes_inorder(root, out)`: the in-order list of node payloads. -/
def collect_nodes_inorder : Tree → List Employee
  | .leaf => []
  | .node e l r => collect_nodes_inorder l ++ e :: collect_nodes_inorder r

/-- In-order sequence of payload keys. -/
def inorderKeys (t : Tree) : List (String × Nat) :=
  (collect_nodes_inorder t).map Employee.key

/-! ## The BST invariant -/

/-- Every payload of the tree satisfies `p`. -/
def ForallT (p : Employee → Prop) : Tree → Prop
  | .leaf => True
  | .node e l r => p e ∧ ForallT p l ∧ ForallT p r

/-- The strict BST invariant over the composite key: left subtree keys are
smaller, right subtree keys are larger, recursively. -/
def IsBST : Tree → Prop
  | .leaf => True
  | .node e l r =>
      ForallT (fun x => keyLt x.key e.key) l ∧
      ForallT (fun x => keyLt e.key x.key) r ∧ IsBST l ∧ IsBST r

theorem forallT_iff_mem {p : Employee → Prop} {t : Tree} :
    ForallT p t ↔ ∀ x ∈ collect_nodes_inorder t, p x := by
  induction t with
  | leaf => simp [ForallT, collect_nodes_inorder]
  | node e l r ihl ihr =>
    simp only [ForallT, collect_nodes_inorder, List.mem_append, List.mem_cons, ihl, ihr]
    constructor
    · rintro ⟨hpe, hl, hr⟩ x (hx | rfl | hx)
      · exact hl x hx
      · exact hpe
      · exact hr x hx
    · intro h
      exact ⟨h e (Or.inr (Or.inl rfl)),
             fun x hx => h x (Or.inl hx),
             fun x hx => h x (Or.inr (Or.inr hx))⟩

theorem forallT_insert {p : Employee → Prop} {t : Tree} {e : Employee}
    (ht : ForallT p t) (he : p e) : ForallT p (insert_node t e) := by
  induction t with
  | leaf => exact ⟨he, trivial, trivial⟩
  | node e0 l r ihl ihr =>
    obtain ⟨h0, hl, hr⟩ := ht
    unfold insert_node
    split
    · exact ⟨h0, ihl hl, hr⟩
    · exact ⟨h0, hl, ihr hr⟩

/-- Structural description of insertion: the in-order sequence of
`insert_node t e` is that of `t` with `e` spliced in at one position. -/
theorem collect_insert_node (t : Tree) (e : Employee) :
    ∃ l1 l2, collect_nodes_inorder t = l1 ++ l2 ∧
      collect_nodes_inorder (insert_node t e) = l1 ++ e :: l2 := by
  induction t with
  | leaf => exact ⟨[], [], rfl, rfl⟩
  | node e0 l r ihl ihr =>
    unfold insert_node
    split
    · obtain ⟨a, b, hab, hins⟩ := ihl
      refine ⟨a, b ++ e0 :: collect_nodes_inorder r, ?_, ?_⟩
      · simp [collect_nodes_inorder, hab]
      · simp [collect_nodes_inorder, hins]
    · obtain ⟨a, b, hab, hins⟩ := ihr
      refine ⟨collect_nodes_inorder l ++ e0 :: a, b, ?_, ?_⟩
      · simp [collect_nodes_inorder, hab]
      · simp [collect_nodes_inorder, hins]

theorem collect_insert_perm (t : Tree) (e : Employee) :
    (collect_nodes_inorder (insert_node t e)).Perm (e :: collect_nodes_inorder t) := by
  obtain ⟨a, b, hab, hins⟩ := collect_insert_node t e
  rw [hab, hins]
  exact List.perm_middle

theorem isBST_insert {t : Tree} {e : Employee} (ht : IsBST t)
    (hne : ∀ x ∈ collect_nodes_inorder t, x.key ≠ e.key) :
    IsBST (insert_node t e) := by
  induction t with
  | leaf => exact ⟨trivial, trivial, trivial, trivial⟩
  | node e0 l r ihl ihr =>
    obtain ⟨hfl, hfr, hbl, hbr⟩ := ht
    unfold insert_node
    split
    · rename_i hlt
      refine ⟨forallT_insert hfl hlt, hfr, ?_, hbr⟩
      exact ihl hbl fun x hx =>
        hne x (by simp [collect_nodes_inorder, hx])
    · rename_i hnlt
      have hne0 : e.key ≠ e0.key :=
        hne e0 (by simp [collect_nodes_inorder]) ∘ Eq.symm
      have hgt : keyLt e0.key e.key := by
        rcases keyLt_connex hne0 with h | h
        · exact absurd h hnlt
        · exact h
      refine ⟨hfl, forallT_insert hfr hgt, hbl, ?_⟩
      exact ihr hbr fun x hx =>
        hne x (by simp [collect_nodes_inorder, hx])

theorem collect_foldl_perm (l : List Employee) :
    ∀ t : Tree, (collect_nodes_inorder (l.foldl insert_node t)).Perm
      (collect_nodes_inorder t ++ l) := by
  induction l with
  | nil => intro t; simp
  | cons e l ih =>
    intro t
    have h1 := ih (insert_node t e)
    have h2 : (collect_nodes_inorder (insert_node t e) ++ l).Perm
        (collect_nodes_inorder t ++ e :: l) := by
      refine ((collect_insert_perm t e).append_right l).trans ?_
      simpa using List.perm_middle.symm
    exact h1.trans h2

theorem isBST_foldl (l : List Employee) :
    ∀ t : Tree, IsBST t →
      (((collect_nodes_inorder t ++ l).map Employee.key).Nodup) →
      IsBST (l.foldl insert_node t) := by
  induction l with
  | nil => intro t ht _; exact ht
  | cons e l ih =>
    intro t ht hnd
    have hne : ∀ x ∈ collect_nodes_inorder t, x.key ≠ e.key := by
      intro x hx heq
      rw [List.map_append, List.nodup_append] at hnd
      exact hnd.2.2 (List.mem_map_of_mem _ hx) (by simp [heq])
    refine ih (insert_node t e) (isBST_insert ht hne) ?_
    have h2 : (collect_nodes_inorder (insert_node t e) ++ l).Perm
        (collect_nodes_inorder t ++ e :: l) := by
      refine ((collect_insert_perm t e).append_right l).trans ?_
      simpa using List.perm_middle.symm
    exact (List.Perm.map Employee.key h2.symm).nodup hnd

theorem pairwise_of_isBST {t : Tree} (ht : IsBST t) :
    (inorderKeys t).Pairwise keyLt := by
  induction t with
  | leaf => simp [inorderKeys, collect_nodes_inorder]
  | node e l r ihl ihr =>
    obtain ⟨hfl, hfr, hbl, hbr⟩ := ht
    have hl' : ∀ x ∈ collect_nodes_inorder l, keyLt x.key e.key :=
      forallT_iff_mem.mp hfl
    have hr' : ∀ x ∈ collect_nodes_inorder r, keyLt e.key x.key :=
      forallT_iff_mem.mp hfr
    simp only [inorderKeys, collect_nodes_inorder, List.map_append, List.map_cons] at *
    rw [List.pairwise_append]
    refine ⟨ihl hbl, ?_, ?_⟩
    · rw [List.pairwise_cons]
      refine ⟨?_, ihr hbr⟩
      intro b hb
      obtain ⟨x, hx, rfl⟩ := List.mem_map.mp hb
      exact hr' x hx
    · intro a ha b hb
      obtain ⟨x, hx, rfl⟩ := List.mem_map.mp ha
      rcases List.mem_cons.mp hb with rfl | hb
      · exact hl' x hx
      · obtain ⟨y, hy, rfl⟩ := List.mem_map.mp hb
        exact keyLt_trans (hl' x hx) (hr' y hy)

theorem size_eq_length_collect (t : Tree) :
    t.size = (collect_nodes_inorder t).length := by
  induction t with
  | leaf => rfl
  | node e l r ihl ihr => simp [Tree.size, collect_nodes_inorder, ihl, ihr]; omega

/-! ## The Corruptor (`violate_bst`) -/

/-- Tree shape: the edge structure with payloads erased. -/
inductive TShape where
  | leaf : TShape
  | node (left right : TShape) : TShape
deriving DecidableEq, Repr

def shapeOf : Tree → TShape
  | .leaf => .leaf
  | .node _ l r => .node (shapeOf l) (shapeOf r)

/-- Refill the payloads of `t` in in-order sequence from `es`; returns the
refilled tree and the unconsumed rest of `es`.  Functional counterpart of
mutating the `emp` fields of the in-order node list in place. -/
def setInorder : Tree → List Employee → Tree × List Employee
  | .leaf, es => (.leaf, es)
  | .node e l r, es =>
    match setInorder l es with
    | (l2, []) => (.node e l2 r, [])
    | (l2, x :: rest) =>
      match setInorder r rest with
      | (r2, es3) => (.node x l2 r2, es3)

def dummyEmp : Employee := default

/-- Swap the entries of `l` at positions `i` and `j` (Python's
parallel assignment on the payloads of the two sampled nodes). -/
def swapList (l : List Employee) (i j : Nat) : List Employee :=
  (l.set i (l.getD j dummyEmp)).set j (l.getD i dummyEmp)

/-- `violate_bst(root, rng)`: collects the in-order node list and, if it has
at least 2 nodes, swaps the payloads of the nodes at positions `i` and `j`,
the two distinct positions sampled by `rng.sample(nodes, 2)`. -/
def violate_bst (t : Tree) (i j : Nat) : Tree :=
  let nodes := collect_nodes_inorder t
  if 2 ≤ nodes.length then (setInorder t (swapList nodes i j)).1 else t

theorem setInorder_spec (t : Tree) : ∀ es : List Employee, t.size ≤ es.length →
    shapeOf (setInorder t es).1 = shapeOf t ∧
    collect_nodes_inorder (setInorder t es).1 = es.take t.size ∧
    (setInorder t es).2 = es.drop t.size := by
  induction t with
  | leaf => intro es _; exact ⟨rfl, rfl, rfl⟩
  | node e l r ihl ihr =>
    intro es h
    simp only [Tree.size] at h
    have hszl : l.size ≤ es.length := by omega
    obtain ⟨hshl, hcol, hrel⟩ := ihl es hszl
    rcases hes2 : (setInorder l es).2 with _ | ⟨x, rest⟩
    · exfalso
      have h0 : es.length - l.size = 0 := by
        rw [← List.length_drop, ← hrel, hes2]; rfl
      omega
    · have hdrop : es.drop l.size = x :: rest := by rw [← hrel, hes2]
      have hrest : rest = es.drop (l.size + 1) := by
        have h1 : (es.drop l.size).drop 1 = rest := by rw [hdrop]; rfl
        rw [List.drop_drop] at h1
        rw [← h1]
      have hrestlen : rest.length = es.length - (l.size + 1) := by
        rw [hrest, List.length_drop]
      have hszr : r.size ≤ rest.length := by omega
      obtain ⟨hshr, hcor, hrer⟩ := ihr rest hszr
      have hpairl : setInorder l es = ((setInorder l es).1, x :: rest) := by
        rw [← hes2]
      have hpairr : setInorder r rest = ((setInorder r rest).1, (setInorder r rest).2) :=
        rfl
      refine ⟨?_, ?_, ?_⟩
      · show shapeOf (match setInorder l es with
          | (l2, []) => (Tree.node e l2 r, ([] : List Employee))
          | (l2, x :: rest) =>
            match setInorder r rest with
            | (r2, es3) => (Tree.node x l2 r2, es3)).1 = _
        rw [hpairl]
        simp only [shapeOf, hshl, hshr]
      · show collect_nodes_inorder (match setInorder l es with
          | (l2, []) => (Tree.node e l2 r, ([] : List Employee))
          | (l2, x :: rest) =>
            match setInorder r rest with
            | (r2, es3) => (Tree.node x l2 r2, es3)).1 = _
        rw [hpairl]
        simp only [collect_nodes_inorder, hcol, hcor]
        have : l.size + r.size + 1 = l.size + (r.size + 1) := by omega
        rw [Tree.size, this, List.take_add, hdrop]
        simp [hrest]
      · show (match setInorder l es with
          | (l2, []) => (Tree.node e l2 r, ([] : List Employee))
          | (l2, x :: rest) =>
            match setInorder r rest with
            | (r2, es3) => (Tree.node x l2 r2, es3)).2 = _
        rw [hpairl]
        show (setInorder r rest).2 = es.drop (Tree.node e l r).size
        rw [hrer, hrest, List.drop_drop]
        congr 1
        simp only [Tree.size]
        omega

theorem length_swapList (l : List Employee) (i j : Nat) :
    (swapList l i j).length = l.length := by
  simp [swapList]

theorem cons_set_perm :
    ∀ (l : List Employee) (j : Nat) (a : Employee), j < l.length →
      (l.getD j dummyEmp :: l.set j a).Perm (a :: l) := by
  intro l
  induction l with
  | nil => intro j a h; simp at h
  | cons b t ih =>
    intro j a h
    cases j with
    | zero => simpa using List.Perm.swap a b t
    | succ j =>
      have hj : j < t.length := by simpa using h
      have h1 : (t.getD j dummyEmp :: b :: t.set j a).Perm
          (b :: t.getD j dummyEmp :: t.set j a) := List.Perm.swap _ _ _
      have h2 : (b :: t.getD j dummyEmp :: t.set j a).Perm (b :: a :: t) :=
        (ih j a hj).cons b
      have h3 : (b :: a :: t).Perm (a :: b :: t) := List.Perm.swap _ _ _
      simpa using h1.trans (h2.trans h3)

theorem swapList_comm (l : List Employee) {i j : Nat} (hij : i ≠ j) :
    swapList l i j = swapList l j i :=
  List.set_comm _ _ l hij

theorem swapList_perm_lt :
    ∀ (i j : Nat) (l : List Employee), i < j → j < l.length →
      (swapList l i j).Perm l := by
  intro i
  induction i with
  | zero =>
    intro j l hij hj
    cases l with
    | nil => simp at hj
    | cons b t =>
      cases j with
      | zero => omega
      | succ j =>
        have hjt : j < t.length := by simpa using hj
        have he : swapList (b :: t) 0 (j + 1) = t.getD j dummyEmp :: t.set j b := by
          simp [swapList]
        rw [he]
        exact cons_set_perm t j b hjt
  | succ i ih =>
    intro j l hij hj
    cases l with
    | nil => simp at hj
    | cons b t =>
      cases j with
      | zero => omega
      | succ j =>
        have he : swapList (b :: t) (i + 1) (j + 1) = b :: swapList t i j := by
          simp [swapList]
        rw [he]
        exact (ih j t (by omega) (by simpa using hj)).cons b

theorem swapList_perm (l : List Employee) {i j : Nat} (hij : i ≠ j)
    (hi : i < l.length) (hj : j < l.length) : (swapList l i j).Perm l := by
  rcases Nat.lt_or_ge i j with h | h
  · exact swapList_perm_lt i j l h hj
  · have hlt : j < i := by omega
    rw [swapList_comm l hij]
    exact swapList_perm_lt j i l hlt hi

/-- Swapping two distinct positions of a strictly increasing key sequence
destroys strict increase. -/
theorem swapList_not_sorted_lt (l : List Employee) {i j : Nat} (hij : i < j)
    (hj : j < l.length) (hp : (l.map Employee.key).Pairwise keyLt) :
    ¬ ((swapList l i j).map Employee.key).Pairwise keyLt := by
  intro hps
  have hi : i < l.length := lt_trans hij hj
  have hiK : i < (l.map Employee.key).length := by simpa using hi
  have hjK : j < (l.map Employee.key).length := by simpa using hj
  have hswap : (swapList l i j).map Employee.key =
      ((l.map Employee.key).set i (l.map Employee.key)[j]).set j
        (l.map Employee.key)[i] := by
    simp only [swapList, List.map_set]
    rw [List.getD_eq_getElem l dummyEmp hi, List.getD_eq_getElem l dummyEmp hj]
    simp [List.getElem_map]
  rw [hswap] at hps
  have hiS : i < (((l.map Employee.key).set i (l.map Employee.key)[j]).set j
      (l.map Employee.key)[i]).length := by simpa using hi
  have hjS : j < (((l.map Employee.key).set i (l.map Employee.key)[j]).set j
      (l.map Employee.key)[i]).length := by simpa using hj
  have hbad := List.pairwise_iff_getElem.mp hps i j hiS hjS hij
  have e1 : (((l.map Employee.key).set i (l.map Employee.key)[j]).set j
      (l.map Employee.key)[i])[i] = (l.map Employee.key)[j] := by
    rw [List.getElem_set_ne (by omega)]
    exact List.getElem_set_self _
  have e2 : (((l.map Employee.key).set i (l.map Employee.key)[j]).set j
      (l.map Employee.key)[i])[j] = (l.map Employee.key)[i] :=
    List.getElem_set_self _
  rw [e1, e2] at hbad
  have hgood := List.pairwise_iff_getElem.mp hp i j hiK hjK hij
  exact keyLt_asymm hgood hbad

theorem violate_collect_shape (t : Tree) (i j : Nat) (hn : 2 ≤ t.size) :
    collect_nodes_inorder (violate_bst t i j) = swapList (collect_nodes_inorder t) i j ∧
    shapeOf (violate_bst t i j) = shapeOf t := by
  have hlen : t.size ≤ (swapList (collect_nodes_inorder t) i j).length := by
    rw [length_swapList, ← size_eq_length_collect]
  obtain ⟨hsh, hco, -⟩ := setInorder_spec t _ hlen
  have hcond : 2 ≤ (collect_nodes_inorder t).length := by
    rw [← size_eq_length_collect]; omega
  constructor
  · simp only [violate_bst]
    rw [if_pos hcond, hco]
    have hfull : (swapList (collect_nodes_inorder t) i j).length = t.size := by
      rw [length_swapList, ← size_eq_length_collect]
    rw [← hfull, List.take_length]
  · simp only [violate_bst]
    rw [if_pos hcond]
    exact hsh

/-- C6 helper and Corruptor theorems live below with the claim statements. -/
theorem violate_noop_of_small (t : Tree) (i j : Nat) (h : t.size ≤ 1) :
    violate_bst t i j = t := by
  have hcond : ¬ 2 ≤ (collect_nodes_inorder t).length := by
    rw [← size_eq_length_collect]; omega
  simp only [violate_bst]
  rw [if_neg hcond]

/-! ## The Serializer (`serialize_tree`) -/

/-- String form of one slot of a level: a present node renders as its record
line, an absent child as the literal token `"null"`. -/
def renderSlot : Tree → String
  | .leaf => "null"
  | .node e _ _ => e.str

/-- Children one slot contributes to the next level: a present node appends
its two (possibly absent) children, an absent slot contributes nothing. -/
def childSlots : Tree → List Tree
  | .leaf => []
  | .node _ l r => [l, r]

/-- Whether a slot holds a present node. -/
def isNode : Tree → Bool
  | .leaf => false
  | .node .. => true

/-- Pop trailing absent slots (`while next_level and next_level[-1] is None:
next_level.pop()`): a slot is dropped exactly when it is absent and every
slot after it is dropped. -/
def dropTrailingLeaves : List Tree → List Tree
  | [] => []
  | t :: rest =>
    if dropTrailingLeaves rest = [] ∧ t = Tree.leaf then []
    else t :: dropTrailingLeaves rest

/-- Termination measure of the serialization loop. -/
def levelMeasure (lvl : List Tree) : Nat :=
  2 * (lvl.map Tree.size).sum + lvl.length

theorem sizes_dropTrailingLeaves (l : List Tree) :
    ((dropTrailingLeaves l).map Tree.size).sum = (l.map Tree.size).sum := by
  induction l with
  | nil => rfl
  | cons t rest ih =>
    rw [dropTrailingLeaves]
    split
    · rename_i hc
      obtain ⟨h1, h2⟩ := hc
      subst h2
      rw [h1] at ih
      simp only [List.map_nil, List.sum_nil, List.map_cons, List.sum_cons,
        Tree.size] at ih ⊢
      omega
    · simp only [List.map_cons, List.sum_cons, ih]

theorem length_dropTrailingLeaves_le (l : List Tree) :
    (dropTrailingLeaves l).length ≤ l.length := by
  induction l with
  | nil => exact Nat.le_refl _
  | cons t rest ih =>
    rw [dropTrailingLeaves]
    split
    · simp
    · simp only [List.length_cons]
      omega

theorem sizes_flatMap_childSlots (l : List Tree) :
    ((l.flatMap childSlots).map Tree.size).sum + l.countP isNode
      = (l.map Tree.size).sum := by
  induction l with
  | nil => rfl
  | cons t rest ih =>
    cases t with
    | leaf =>
      simpa [childSlots, isNode, List.countP_cons, Tree.size] using ih
    | node e a b =>
      simp [childSlots, isNode, List.countP_cons, Tree.size] at *
      omega

theorem length_flatMap_childSlots (l : List Tree) :
    (l.flatMap childSlots).length = 2 * l.countP isNode := by
  induction l with
  | nil => rfl
  | cons t rest ih =>
    cases t with
    | leaf => simpa [childSlots, isNode, List.countP_cons] using ih
    | node e a b =>
      simp [childSlots, isNode, List.countP_cons] at *
      omega

theorem next_measure_lt (l : List Tree) (h : l ≠ []) :
    levelMeasure (dropTrailingLeaves (l.flatMap childSlots)) < levelMeasure l := by
  have h1 := sizes_dropTrailingLeaves (l.flatMap childSlots)
  have h2 := length_dropTrailingLeaves_le (l.flatMap childSlots)
  have h3 := sizes_flatMap_childSlots l
  have h4 := length_flatMap_childSlots l
  have h5 : 1 ≤ l.length := by
    cases l with
    | nil => exact absurd rfl h
    | cons a as => simp
  unfold levelMeasure
  omega

/-- Body of `serialize_tree`'s while loop: render the current level, emit the
joined line when some rendered slot differs from `"null"`, pop trailing
absent slots from the collected next level, and continue on it. -/
def serializeLoop : List Tree → List String
  | [] => []
  | t :: rest =>
    let parts := (t :: rest).map renderSlot
    let next := dropTrailingLeaves ((t :: rest).flatMap childSlots)
    if parts.any (fun p => p != "null") then
      " ".intercalate parts :: serializeLoop next
    else
      serializeLoop next
termination_by lvl => levelMeasure lvl
decreasing_by
  all_goals exact next_measure_lt _ (List.cons_ne_nil _ _)

/-- `serialize_tree(root)`: empty output for the empty tree, otherwise the
level-order loop started from the root level. -/
def serialize_tree : Tree → List String
  | .leaf => []
  | .node e a b => serializeLoop [.node e a b]

/-- Sequence of `current_level` values taken by the loop. -/
def levelSeq : List Tree → List (List Tree)
  | [] => []
  | t :: rest =>
    (t :: rest) :: levelSeq (dropTrailingLeaves ((t :: rest).flatMap childSlots))
termination_by lvl => levelMeasure lvl
decreasing_by
  all_goals exact next_measure_lt _ (List.cons_ne_nil _ _)

/-- The same loop keeping each emitted line as its list of slot strings. -/
def serializeParts : List Tree → List (List String)
  | [] => []
  | t :: rest =>
    let parts := (t :: rest).map renderSlot
    let next := dropTrailingLeaves ((t :: rest).flatMap childSlots)
    if parts.any (fun p => p != "null") then
      parts :: serializeParts next
    else
      serializeParts next
termination_by lvl => levelMeasure lvl
decreasing_by
  all_goals exact next_measure_lt _ (List.cons_ne_nil _ _)

/-! ## Serializer lemmas -/

theorem str_has_comma (e : Employee) : (',' : Char) ∈ e.str.data := by
  simp only [Employee.str, String.data_append]
  refine List.mem_append.mpr (Or.inl ?_)
  exact List.mem_append.mpr (Or.inr (by decide))

/-- A rendered record line is never the token `"null"`: it contains a comma. -/
theorem str_ne_null (e : Employee) : e.str ≠ "null" := by
  intro h
  have hc := str_has_comma e
  rw [h] at hc
  exact absurd hc (by decide)

theorem renderSlot_bne_null (t : Tree) : (renderSlot t != "null") = isNode t := by
  cases t with
  | leaf => decide
  | node e a b => simp [renderSlot, isNode, bne_iff_ne, str_ne_null]

theorem any_map_renderSlot (lvl : List Tree) :
    ((lvl.map renderSlot).any fun p => p != "null") = lvl.any isNode := by
  induction lvl with
  | nil => rfl
  | cons t rest ih =>
    simp only [List.map_cons, List.any_cons, ih, renderSlot_bne_null]

theorem countP_map_renderSlot (lvl : List Tree) :
    ((lvl.map renderSlot).countP fun p => p != "null") = lvl.countP isNode := by
  induction lvl with
  | nil => rfl
  | cons t rest ih =>
    simp only [List.map_cons, List.countP_cons, ih, renderSlot_bne_null]

theorem leaf_of_not_isNode {t : Tree} (h : ¬ isNode t = true) : t = Tree.leaf := by
  cases t with
  | leaf => rfl
  | node e a b => exact absurd rfl h

theorem dropTrailingLeaves_all_leaf {l : List Tree} (h : ∀ x ∈ l, x = Tree.leaf) :
    dropTrailingLeaves l = [] := by
  induction l with
  | nil => rfl
  | cons t rest ih =>
    rw [dropTrailingLeaves]
    rw [if_pos ⟨ih fun x hx => h x (List.mem_cons_of_mem t hx),
      h t (List.mem_cons_self t rest)⟩]

theorem exists_node_of_dropTrailingLeaves {l : List Tree}
    (h : dropTrailingLeaves l ≠ []) :
    ∃ x ∈ dropTrailingLeaves l, isNode x = true := by
  induction l with
  | nil => exact absurd rfl h
  | cons t rest ih =>
    by_cases hc : dropTrailingLeaves rest = [] ∧ t = Tree.leaf
    · rw [dropTrailingLeaves, if_pos hc] at h
      exact absurd rfl h
    · rw [dropTrailingLeaves, if_neg hc]
      by_cases hr : dropTrailingLeaves rest = []
      · have ht : t ≠ Tree.leaf := fun he => hc ⟨hr, he⟩
        refine ⟨t, List.mem_cons_self t _, ?_⟩
        cases t with
        | leaf => exact absurd rfl ht
        | node e a b => rfl
      · obtain ⟨x, hx, hxn⟩ := ih hr
        exact ⟨x, List.mem_cons_of_mem t hx, hxn⟩

theorem dropTrailingLeaves_idem (l : List Tree) :
    dropTrailingLeaves (dropTrailingLeaves l) = dropTrailingLeaves l := by
  induction l with
  | nil => rfl
  | cons t rest ih =>
    by_cases hc : dropTrailingLeaves rest = [] ∧ t = Tree.leaf
    · have he : dropTrailingLeaves (t :: rest) = [] := by
        rw [dropTrailingLeaves, if_pos hc]
      rw [he]
      rfl
    · have he : dropTrailingLeaves (t :: rest) = t :: dropTrailingLeaves rest := by
        rw [dropTrailingLeaves, if_neg hc]
      rw [he, dropTrailingLeaves, ih, if_neg hc]

theorem self_mem_levelSeq (t : Tree) (rest : List Tree) :
    (t :: rest) ∈ levelSeq (t :: rest) := by
  rw [levelSeq]
  exact List.mem_cons_self _ _

theorem levelSeq_invariant :
    ∀ l : List Tree, (∃ x ∈ l, isNode x = true) → dropTrailingLeaves l = l →
      ∀ sub ∈ levelSeq l,
        (∃ x ∈ sub, isNode x = true) ∧ dropTrailingLeaves sub = sub ∧ sub ≠ [] := by
  intro l
  induction l using levelSeq.induct with
  | case1 =>
    intro hex _ sub hsub
    simp [levelSeq] at hsub
  | case2 t rest ih =>
    intro hex hfix sub hsub
    rw [levelSeq] at hsub
    rcases List.mem_cons.mp hsub with rfl | hsub
    · exact ⟨hex, hfix, by simp⟩
    · by_cases hnil : dropTrailingLeaves ((t :: rest).flatMap childSlots) = []
      · rw [hnil] at hsub
        simp [levelSeq] at hsub
      · exact ih (exists_node_of_dropTrailingLeaves hnil)
          (dropTrailingLeaves_idem _) sub hsub

theorem serializeLoop_eq_levelSeq :
    ∀ l : List Tree, (∀ sub ∈ levelSeq l, ∃ x ∈ sub, isNode x = true) →
      serializeLoop l =
        (levelSeq l).map fun sub => " ".intercalate (sub.map renderSlot) := by
  intro l
  induction l using levelSeq.induct with
  | case1 => intro _; rw [serializeLoop, levelSeq]; rfl
  | case2 t rest ih =>
    intro hall
    have hex : ∃ x ∈ t :: rest, isNode x = true :=
      hall _ (self_mem_levelSeq t rest)
    have hcond : ((t :: rest).map renderSlot).any (fun p => p != "null") = true := by
      rw [any_map_renderSlot]
      obtain ⟨x, hx, hxn⟩ := hex
      exact List.any_eq_true.mpr ⟨x, hx, hxn⟩
    have hall2 : ∀ sub ∈ levelSeq (dropTrailingLeaves ((t :: rest).flatMap childSlots)),
        ∃ x ∈ sub, isNode x = true := by
      intro sub hsub
      refine hall sub ?_
      rw [levelSeq]
      exact List.mem_cons_of_mem _ hsub
    rw [serializeLoop, levelSeq]
    rw [if_pos hcond, List.map_cons]
    rw [ih hall2]
    simp only [List.map_cons]

theorem serializeLoop_all_leaf {l : List Tree} (h : ∀ x ∈ l, x = Tree.leaf) :
    serializeLoop l = [] := by
  cases l with
  | nil => rw [serializeLoop]
  | cons t rest =>
    have hcond : ¬ (((t :: rest).map renderSlot).any
        (fun p => p != "null") = true) := by
      rw [any_map_renderSlot]
      simp only [List.any_eq_true, not_exists]
      intro x
      rintro ⟨hx, hxn⟩
      rw [h x hx] at hxn
      exact absurd hxn (by decide)
    have hnext : (t :: rest).flatMap childSlots = [] := by
      have hall : ∀ x ∈ t :: rest, childSlots x = [] := by
        intro x hx
        rw [h x hx]
        rfl
      simpa [List.flatMap_eq_nil_iff] using hall
    rw [serializeLoop, if_neg hcond, hnext]
    show serializeLoop (dropTrailingLeaves []) = []
    rw [show dropTrailingLeaves [] = [] from rfl, serializeLoop]

theorem serializeLoop_eq_parts :
    ∀ l : List Tree,
      serializeLoop l = (serializeParts l).map fun parts => " ".intercalate parts := by
  intro l
  induction l using levelSeq.induct with
  | case1 => rw [serializeLoop, serializeParts]; rfl
  | case2 t rest ih =>
    rw [serializeLoop, serializeParts]
    by_cases hcond : (((t :: rest).map renderSlot).any
        (fun p => p != "null")) = true
    · rw [if_pos hcond, if_pos hcond, List.map_cons, ih]
      simp only [List.map_cons]
    · rw [if_neg hcond, if_neg hcond, ih]

theorem parts_count_sum :
    ∀ l : List Tree,
      ((serializeParts l).map fun parts => parts.countP fun p => p != "null").sum
        = (l.map Tree.size).sum := by
  intro l
  induction l using levelSeq.induct with
  | case1 => rw [serializeParts]; rfl
  | case2 t rest ih =>
    have hsz1 := sizes_dropTrailingLeaves ((t :: rest).flatMap childSlots)
    have hsz2 := sizes_flatMap_childSlots (t :: rest)
    have hcp := countP_map_renderSlot (t :: rest)
    rw [serializeParts]
    by_cases hcond : (((t :: rest).map renderSlot).any
        (fun p => p != "null")) = true
    · rw [if_pos hcond, List.map_cons, List.sum_cons, ih, hcp]
      simp only [List.map_cons, List.sum_cons] at hsz2 ⊢
      omega
    · rw [if_neg hcond, ih]
      have hall : ∀ x ∈ t :: rest, x = Tree.leaf := by
        rw [any_map_renderSlot] at hcond
        intro x hx
        refine leaf_of_not_isNode fun hxn => hcond ?_
        exact List.any_eq_true.mpr ⟨x, hx, hxn⟩
      have hzero : ((t :: rest).map Tree.size).sum = 0 := by
        apply List.sum_eq_zero
        intro n hn
        obtain ⟨x, hx, rfl⟩ := List.mem_map.mp hn
        rw [hall x hx]
        rfl
      have hcnt : (t :: rest).countP isNode = 0 := by
        rw [List.countP_eq_zero]
        intro x hx
        rw [hall x hx]
        decide
      omega

/-- The level the serialization loop starts from. -/
def initLevel : Tree → List Tree
  | .leaf => []
  | .node e a b => [.node e a b]

theorem serialize_tree_eq_loop (t : Tree) :
    serialize_tree t = serializeLoop (initLevel t) := by
  cases t with
  | leaf =>
    show serialize_tree Tree.leaf = serializeLoop []
    rw [serializeLoop]
    rfl
  | node e a b => rfl

/-! ## Random source model and the Generator -/

/-- Python's seeded `random.Random` modelled as a stream of naturals plus a
position; every primitive draw consumes one stream value in order.  Two runs
with the same seed read the same stream. -/
structure Rng where
  stream : Nat → Nat
  pos : Nat

/-- Consume one raw draw. -/
def Rng.next (r : Rng) : Nat × Rng :=
  (r.stream r.pos, { r with pos := r.pos + 1 })

/-- `rng.randint(a, b)`: one draw mapped into `[a, b]`, both ends included. -/
def randint (a b : Nat) (r : Rng) : Nat × Rng :=
  let p := r.next
  (a + p.1 % (b + 1 - a), p.2)

/-- `rng.choice(xs)` for a nonempty list of strings. -/
def choice (xs : List String) (r : Rng) : String × Rng :=
  let p := r.next
  (xs.getD (p.1 % xs.length) "", p.2)

/-- `string.ascii_lowercase`. -/
def asciiLowercase : List Char := "abcdefghijklmnopqrstuvwxyz".data

/-- `rng.choice(string.ascii_lowercase)`. -/
def choiceChar (r : Rng) : Char × Rng :=
  let p := r.next
  (asciiLowercase.getD (p.1 % asciiLowercase.length) 'a', p.2)

/-- The characters drawn by `random_string`, in draw order. -/
def randChars : Nat → Rng → List Char × Rng
  | 0, r => ([], r)
  | n + 1, r =>
    let p := choiceChar r
    let q := randChars n p.2
    (p.1 :: q.1, q.2)

/-- `random_string(rng, length)`: the join of `length` character draws. -/
def random_string (r : Rng) (len : Nat) : String × Rng :=
  let p := randChars len r
  (String.mk p.1, p.2)

/-- `generate_employee(rng, used_keys)`, the retry loop bounded by explicit
fuel (`none` = fuel exhausted before a fresh key appeared).  Python evaluates
`rng.randint(1, 5)` before `random_string` consumes the character draws, and
it samples a fresh name on every retry, before the candidate key. -/
def generate_employee : Nat → Rng → List (String × Nat) →
    Option (Employee × Rng × List (String × Nat))
  | 0, _, _ => none
  | fuel + 1, r, used_keys =>
    let p1 := randint 1 5 r
    let p2 := random_string p1.2 p1.1
    let p3 := choice DEPARTMENTS p2.2
    let p4 := randint 1 200 p3.2
    if (p3.1, p4.1) ∈ used_keys then
      generate_employee fuel p4.2 used_keys
    else
      let p5 := choice JOB_TITLES p4.2
      let p6 := randint 1000 5000 p5.2
      some (⟨p2.1, p3.1, p4.1, p5.1, p6.1⟩, p6.2,
        (p3.1, p4.1) :: used_keys)

/-- Stated sampling order of the spec: the candidate key is sampled first and
committed, and only then are `name`, `job_title` and `salary` sampled.  This
definition follows the spec's words and exists solely to be compared with the
code's `generate_employee`. -/
def generate_employee_specOrder : Nat → Rng → List (String × Nat) →
    Option (Employee × Rng × List (String × Nat))
  | 0, _, _ => none
  | fuel + 1, r, used_keys =>
    let p1 := choice DEPARTMENTS r
    let p2 := randint 1 200 p1.2
    if (p1.1, p2.1) ∈ used_keys then
      generate_employee_specOrder fuel p2.2 used_keys
    else
      let p3 := randint 1 5 p2.2
      let p4 := random_string p3.2 p3.1
      let p5 := choice JOB_TITLES p4.2
      let p6 := randint 1000 5000 p5.2
      some (⟨p4.1, p1.1, p2.1, p5.1, p6.1⟩, p6.2,
        (p1.1, p2.1) :: used_keys)

/-! ## Rng-threaded Builder, Corruptor and Orchestrator -/

/-- `_randbelow(n)`: one draw reduced modulo `n`. -/
def randbelow (n : Nat) (r : Rng) : Nat × Rng :=
  let p := r.next
  (p.1 % n, p.2)

/-- Fisher–Yates shuffle (`rng.shuffle`), swapping from the top index down. -/
def shuffleFY : Nat → List Employee → Rng → List Employee × Rng
  | 0, xs, r => (xs, r)
  | i + 1, xs, r =>
    let p := randbelow (i + 2) r
    shuffleFY i (swapList xs (i + 1) p.1) p.2

/-- `rng.shuffle(xs)`. -/
def shuffle (xs : List Employee) (r : Rng) : List Employee × Rng :=
  shuffleFY (xs.length - 1) xs r

/-- `build_valid_bst_from_list(employees, rng)` with its internal shuffle:
copies the list, shuffles it with the supplied source, and inserts in order. -/
def build_valid_bst_from_list_rng (employees : List Employee) (r : Rng) :
    Tree × Rng :=
  let p := shuffle employees r
  (build_valid_bst_from_list p.1, p.2)

/-- `rng.sample(nodes, 2)` reduced to its guarantee: two distinct indices
below `n` (for `2 ≤ n`), from two draws, the second skipping the first. -/
def sample2 (n : Nat) (r : Rng) : (Nat × Nat) × Rng :=
  let p := randbelow n r
  let q := randbelow (n - 1) p.2
  ((p.1, if q.1 ≥ p.1 then q.1 + 1 else q.1), q.2)

/-- `violate_bst(root, rng)` with its own sampling: draws only happen when
the tree has at least 2 nodes. -/
def violate_bst_rng (t : Tree) (r : Rng) : Tree × Rng :=
  let nodes := collect_nodes_inorder t
  if 2 ≤ nodes.length then
    let p := sample2 nodes.length r
    ((setInorder t (swapList nodes p.1.1 p.1.2)).1, p.2)
  else (t, r)

/-- The list comprehension `[generate_employee(rng, used_keys) for _ in
range(num_emps)]`, sharing one `used_keys` set. -/
def genEmployees : Nat → Nat → Rng → List (String × Nat) →
    Option (List Employee × Rng × List (String × Nat))
  | 0, _, r, used_keys => some ([], r, used_keys)
  | n + 1, fuel, r, used_keys =>
    match generate_employee fuel r used_keys with
    | none => none
    | some (e, r1, used1) =>
      match genEmployees n fuel r1 used1 with
      | none => none
      | some (es, r2, used2) => some (e :: es, r2, used2)

/-- `generate_testcase(is_valid, test_index, rng, emp_range)` minus the file
system: returns the fixture index, the `input.txt` lines and the one-line
`output.txt` content. -/
def generate_testcase (is_valid : Bool) (test_index fuel : Nat)
    (emp_range : Nat × Nat) (r : Rng) :
    Option ((Nat × List String × String) × Rng) :=
  let p := randint emp_range.1 emp_range.2 r
  match genEmployees p.1 fuel p.2 [] with
  | none => none
  | some (employees, r2, _) =>
    let q := build_valid_bst_from_list_rng employees r2
    let q2 := if is_valid then q else violate_bst_rng q.1 q.2
    some ((test_index, serialize_tree q2.1,
      if is_valid then "true\n" else "false\n"), q2.2)

/-- One of `main`'s two generation loops: `k` fixtures remain, the last one
(counter `k = 1`) uses `SPECIAL_RANGE`. -/
def mainLoop (is_valid : Bool) (fuel : Nat) :
    Nat → Nat → Rng → Option (List (Nat × List String × String) × Nat × Rng)
  | 0, idx, r => some ([], idx, r)
  | k + 1, idx, r =>
    let range := if k = 0 then SPECIAL_RANGE else EMPLOYEE_RANGE
    match generate_testcase is_valid idx fuel range r with
    | none => none
    | some (fx, r1) =>
      match mainLoop is_valid fuel k (idx + 1) r1 with
      | none => none
      | some (rest, idx2, r2) => some (fx :: rest, idx2, r2)

/-- `main()` minus the file system: the valid fixtures, then the invalid
ones, numbered from `START_INDEX`, all draws from the one seeded source. -/
def main_run (fuel : Nat) (r : Rng) :
    Option (List (Nat × List String × String)) :=
  match mainLoop true fuel NUM_VALID START_INDEX r with
  | none => none
  | some (valids, idx1, r1) =>
    match mainLoop false fuel NUM_INVALID idx1 r1 with
    | none => none
    | some (invalids, _, _) => some (valids ++ invalids)

/-! ## Generator and Orchestrator lemmas -/

theorem choice_mem (xs : List String) (r : Rng) (hne : xs ≠ []) :
    (choice xs r).1 ∈ xs := by
  have hlen : 0 < xs.length := List.length_pos.mpr hne
  have hlt : r.stream r.pos % xs.length < xs.length := Nat.mod_lt _ hlen
  simp only [choice, Rng.next]
  rw [List.getD_eq_getElem _ _ hlt]
  exact List.getElem_mem _

theorem randint_bounds (a b : Nat) (r : Rng) (h : a ≤ b) :
    a ≤ (randint a b r).1 ∧ (randint a b r).1 ≤ b := by
  simp only [randint, Rng.next]
  have hlt : r.stream r.pos % (b + 1 - a) < b + 1 - a := Nat.mod_lt _ (by omega)
  omega

theorem mk_length (cs : List Char) : (String.mk cs).length = cs.length := rfl

theorem randChars_length (n : Nat) : ∀ r : Rng, (randChars n r).1.length = n := by
  induction n with
  | zero => intro r; rfl
  | succ n ih =>
    intro r
    simp only [randChars]
    simp [ih]

theorem randChars_lower (n : Nat) :
    ∀ r : Rng, ∀ c ∈ (randChars n r).1, c ∈ asciiLowercase := by
  induction n with
  | zero =>
    intro r c hc
    simp [randChars] at hc
  | succ n ih =>
    intro r c hc
    simp only [randChars] at hc
    rcases List.mem_cons.mp hc with rfl | hc
    · have hlt : (choiceChar r).2.stream 0 % asciiLowercase.length <
          asciiLowercase.length := Nat.mod_lt _ (by decide)
      simp only [choiceChar, Rng.next]
      have hlt2 : r.stream r.pos % asciiLowercase.length < asciiLowercase.length :=
        Nat.mod_lt _ (by decide)
      rw [List.getD_eq_getElem _ _ hlt2]
      exact List.getElem_mem _
    · exact ih _ c hc

theorem generate_employee_props :
    ∀ (fuel : Nat) (r : Rng) (used : List (String × Nat)) (e : Employee)
      (r2 : Rng) (used2 : List (String × Nat)),
      generate_employee fuel r used = some (e, r2, used2) →
      e.key ∉ used ∧ used2 = e.key :: used ∧ e.department ∈ DEPARTMENTS ∧
      1 ≤ e.id_in_department ∧ e.id_in_department ≤ 200 ∧
      1 ≤ e.name.length ∧ e.name.length ≤ 5 ∧
      (∀ c ∈ e.name.data, c ∈ asciiLowercase) ∧
      e.job_title ∈ JOB_TITLES ∧ 1000 ≤ e.salary ∧ e.salary ≤ 5000 := by
  intro fuel
  induction fuel with
  | zero =>
    intro r used e r2 used2 h
    simp [generate_employee] at h
  | succ fuel ih =>
    intro r used e r2 used2 h
    simp only [generate_employee] at h
    split at h
    · exact ih _ _ _ _ _ h
    · rename_i hnotin
      simp only [Option.some.injEq, Prod.mk.injEq] at h
      obtain ⟨he, hr, hu⟩ := h
      subst he
      refine ⟨hnotin, hu.symm, ?_, ?_, ?_, ?_, ?_, ?_, ?_, ?_, ?_⟩
      · exact choice_mem DEPARTMENTS _ (by simp [DEPARTMENTS])
      · exact (randint_bounds 1 200 _ (by omega)).1
      · exact (randint_bounds 1 200 _ (by omega)).2
      · show 1 ≤ (random_string _ _).1.length
        simp only [random_string, mk_length, randChars_length]
        exact (randint_bounds 1 5 _ (by omega)).1
      · show (random_string _ _).1.length ≤ 5
        simp only [random_string, mk_length, randChars_length]
        exact (randint_bounds 1 5 _ (by omega)).2
      · show ∀ c ∈ (random_string _ _).1.data, c ∈ asciiLowercase
        simp only [random_string]
        exact randChars_lower _ _
      · exact choice_mem JOB_TITLES _ (by simp [JOB_TITLES])
      · exact (randint_bounds 1000 5000 _ (by omega)).1
      · exact (randint_bounds 1000 5000 _ (by omega)).2

/-- The generator always succeeds against an empty `used_keys` set. -/
theorem generate_employee_succeeds (fuel : Nat) (r : Rng) :
    ∃ e r2, generate_employee (fuel + 1) r [] = some (e, r2, [e.key]) := by
  rw [generate_employee]
  rw [if_neg (List.not_mem_nil _)]
  exact ⟨_, _, rfl⟩

theorem violate_bst_rng_small (t : Tree) (r : Rng) (h : t.size ≤ 1) :
    violate_bst_rng t r = (t, r) := by
  have hc : ¬ 2 ≤ (collect_nodes_inorder t).length := by
    rw [← size_eq_length_collect]
    omega
  simp only [violate_bst_rng]
  rw [if_neg hc]

theorem serialize_single (e : Employee) :
    serialize_tree (Tree.node e .leaf .leaf) = [e.str] := by
  show serializeLoop [Tree.node e .leaf .leaf] = [e.str]
  rw [serializeLoop]
  have hcond : (([Tree.node e .leaf .leaf]).map renderSlot).any
      (fun p => p != "null") = true := by
    rw [any_map_renderSlot]
    simp [isNode]
  rw [if_pos hcond]
  have hnext : dropTrailingLeaves ([Tree.node e .leaf .leaf].flatMap childSlots)
      = [] := by
    apply dropTrailingLeaves_all_leaf
    intro x hx
    simp [childSlots] at hx
    subst hx
    rfl
  rw [hnext, serializeLoop]
  simp only [List.map_cons, List.map_nil, renderSlot]
  rfl

theorem generate_testcase_fields (v : Bool) (idx fuel : Nat)
    (range : Nat × Nat) (r : Rng) (fx : Nat × List String × String) (r1 : Rng)
    (h : generate_testcase v idx fuel range r = some (fx, r1)) :
    fx.1 = idx ∧ fx.2.2 = (if v then "true\n" else "false\n") := by
  simp only [generate_testcase] at h
  split at h
  · simp at h
  · simp only [Option.some.injEq, Prod.mk.injEq] at h
    obtain ⟨hfx, -⟩ := h
    rw [← hfx]
    exact ⟨rfl, rfl⟩

theorem mainLoop_plan (v : Bool) (fuel : Nat) :
    ∀ (k idx : Nat) (r : Rng) (lst : List (Nat × List String × String))
      (idx2 : Nat) (r2 : Rng),
      mainLoop v fuel k idx r = some (lst, idx2, r2) →
      lst.map (fun x => (x.1, x.2.2)) =
        (List.range k).map
          (fun m => (idx + m, if v then "true\n" else "false\n")) ∧
      idx2 = idx + k := by
  intro k
  induction k with
  | zero =>
    intro idx r lst idx2 r2 h
    simp only [mainLoop, Option.some.injEq] at h
    injection h.symm with h1 h23
    injection h23 with h2 h3
    subst h1 h2
    simp
  | succ k ih =>
    intro idx r lst idx2 r2 h
    simp only [mainLoop] at h
    rcases heq : generate_testcase v idx fuel
        (if k = 0 then SPECIAL_RANGE else EMPLOYEE_RANGE) r with _ | ⟨fx, r1⟩
    · rw [heq] at h
      simp at h
    · rw [heq] at h
      simp only [Option.some.injEq] at h
      rcases heq2 : mainLoop v fuel k (idx + 1) r1 with _ | ⟨rest, idx3, r3⟩
      · rw [heq2] at h
        simp at h
      · rw [heq2] at h
        simp only [Option.some.injEq] at h
        injection h with h1 h23
        injection h23 with h2 h3
        subst h1 h2
        obtain ⟨hrest, hidx⟩ := ih (idx + 1) r1 rest idx3 r3 heq2
        obtain ⟨hfx1, hfx2⟩ := generate_testcase_fields v idx fuel _ r fx r1 heq
        constructor
        · rw [List.map_cons, hrest, List.range_succ_eq_map, List.map_cons,
            List.map_map]
          have hhead : (fx.1, fx.2.2) =
              (idx + 0, if v then "true\n" else "false\n") := by
            rw [hfx1, hfx2]
            simp
          rw [hhead]
          have htail : ∀ m ∈ List.range k,
              (idx + 1 + m, if v then "true\n" else "false\n") =
                ((fun m => (idx + m, if v then "true\n" else "false\n")) ∘
                  Nat.succ) m := by
            intro m hm
            simp only [Function.comp]
            congr 1
            omega
          rw [List.map_congr_left htail]
        · omega

theorem main_run_fixtures (fuel : Nat) (r : Rng)
    (l : List (Nat × List String × String)) (hm : main_run fuel r = some l) :
    l.map (fun x => (x.1, x.2.2)) =
      [(9, "true\n"), (10, "true\n"), (11, "true\n"),
       (12, "false\n"), (13, "false\n"), (14, "false\n")] := by
  simp only [main_run] at hm
  rcases heq1 : mainLoop true fuel NUM_VALID START_INDEX r
    with _ | ⟨valids, idx1, r1⟩
  · rw [heq1] at hm
    simp at hm
  · rw [heq1] at hm
    simp only [Option.some.injEq] at hm
    rcases heq2 : mainLoop false fuel NUM_INVALID idx1 r1
      with _ | ⟨invalids, idx2, r2⟩
    · rw [heq2] at hm
      simp at hm
    · rw [heq2] at hm
      simp only [Option.some.injEq] at hm
      subst hm
      obtain ⟨hv, hidx⟩ :=
        mainLoop_plan true fuel NUM_VALID START_INDEX r valids idx1 r1 heq1
      obtain ⟨hi, -⟩ :=
        mainLoop_plan false fuel NUM_INVALID idx1 r1 invalids idx2 r2 heq2
      rw [List.map_append, hv, hi, hidx]
      decide

/-! ## Concrete values used by witnesses and counterexamples -/

def empA : Employee := ⟨"x", "HR", 1, "Junior", 1000⟩

def empB : Employee := ⟨"y", "HR", 2, "Senior", 2000⟩

/-- The identity stream, position 0: a concrete random source. -/
def rng0 : Rng := ⟨fun n => n, 0⟩

/-! ## Claim theorems -/

/-- C1: building from any insertion order (any permutation) of a record list
with pairwise-distinct keys yields a tree satisfying the strict BST invariant
over the composite `(department, id_in_department)` key; equivalently its
in-order key sequence is strictly increasing. -/
theorem builder_produces_valid_bst (records shuffled : List Employee)
    (hkeys : (records.map Employee.key).Nodup) (hperm : shuffled.Perm records) :
    IsBST (build_valid_bst_from_list shuffled) ∧
    (inorderKeys (build_valid_bst_from_list shuffled)).Pairwise keyLt := by
  have hnd : (shuffled.map Employee.key).Nodup :=
    ((hperm.symm).map Employee.key).nodup hkeys
  have hbst : IsBST (build_valid_bst_from_list shuffled) := by
    show IsBST (shuffled.foldl insert_node Tree.leaf)
    apply isBST_foldl shuffled Tree.leaf trivial
    simpa [collect_nodes_inorder] using hnd
  exact ⟨hbst, pairwise_of_isBST hbst⟩

/-- C1 witness at a concrete two-record instance. -/
theorem builder_produces_valid_bst_witness :
    (([empA, empB].map Employee.key).Nodup ∧ [empB, empA].Perm [empA, empB]) ∧
    (IsBST (build_valid_bst_from_list [empB, empA]) ∧
     (inorderKeys (build_valid_bst_from_list [empB, empA])).Pairwise keyLt) :=
  ⟨⟨by decide, by decide⟩,
   builder_produces_valid_bst [empA, empB] [empB, empA] (by decide) (by decide)⟩

/-- C2: corrupting a tree with at least two nodes whose in-order key sequence
is strictly increasing (pairwise-distinct keys, valid BST) by swapping the
payloads at two distinct sampled in-order positions leaves the key multiset
and the edge structure unchanged but makes the in-order key sequence no
longer strictly increasing. -/
theorem corruptor_breaks_order (t : Tree) (i j : Nat)
    (hsort : (inorderKeys t).Pairwise keyLt) (hn : 2 ≤ t.size) (hij : i ≠ j)
    (hi : i < t.size) (hj : j < t.size) :
    ¬ (inorderKeys (violate_bst t i j)).Pairwise keyLt ∧
    (inorderKeys (violate_bst t i j)).Perm (inorderKeys t) ∧
    shapeOf (violate_bst t i j) = shapeOf t := by
  obtain ⟨hco, hsh⟩ := violate_collect_shape t i j hn
  have hi2 : i < (collect_nodes_inorder t).length := by
    rw [← size_eq_length_collect]; omega
  have hj2 : j < (collect_nodes_inorder t).length := by
    rw [← size_eq_length_collect]; omega
  have hsort2 : ((collect_nodes_inorder t).map Employee.key).Pairwise keyLt :=
    hsort
  refine ⟨?_, ?_, hsh⟩
  · show ¬ ((collect_nodes_inorder (violate_bst t i j)).map
      Employee.key).Pairwise keyLt
    rw [hco]
    rcases Nat.lt_or_ge i j with hlt | hge
    · exact swapList_not_sorted_lt _ hlt hj2 hsort2
    · have hlt : j < i := by omega
      rw [swapList_comm _ hij]
      exact swapList_not_sorted_lt _ hlt hi2 hsort2
  · show ((collect_nodes_inorder (violate_bst t i j)).map Employee.key).Perm
      ((collect_nodes_inorder t).map Employee.key)
    rw [hco]
    exact (swapList_perm _ hij hi2 hj2).map _

/-- C2 witness at a concrete two-node tree. -/
theorem corruptor_breaks_order_witness :
    ((inorderKeys (Tree.node empB (Tree.node empA .leaf .leaf) .leaf)).Pairwise
        keyLt ∧
      2 ≤ (Tree.node empB (Tree.node empA .leaf .leaf) .leaf).size ∧
      (0 : Nat) ≠ 1 ∧
      0 < (Tree.node empB (Tree.node empA .leaf .leaf) .leaf).size ∧
      1 < (Tree.node empB (Tree.node empA .leaf .leaf) .leaf).size) ∧
    (¬ (inorderKeys
        (violate_bst (Tree.node empB (Tree.node empA .leaf .leaf) .leaf) 0 1)).Pairwise
        keyLt ∧
      (inorderKeys
        (violate_bst (Tree.node empB (Tree.node empA .leaf .leaf) .leaf) 0 1)).Perm
        (inorderKeys (Tree.node empB (Tree.node empA .leaf .leaf) .leaf)) ∧
      shapeOf (violate_bst (Tree.node empB (Tree.node empA .leaf .leaf) .leaf) 0 1) =
        shapeOf (Tree.node empB (Tree.node empA .leaf .leaf) .leaf)) :=
  ⟨⟨by decide, by decide, by decide, by decide, by decide⟩,
   corruptor_breaks_order _ 0 1 (by decide) (by decide) (by decide) (by decide)
     (by decide)⟩

/-- C3: for every nonempty tree the serializer's output is exactly one line
per loop level; each rendered level keeps its interior absent slots, already
has its trailing absent slots dropped (it is a nonempty fixpoint of
`dropTrailingLeaves`), and contains at least one present node, so a line is
emitted only when some slot is non-`null`; a fully absent level produces no
line and stops the loop. -/
theorem serializer_level_structure (t : Tree) (h : t ≠ Tree.leaf) :
    serialize_tree t =
      (levelSeq [t]).map (fun sub => " ".intercalate (sub.map renderSlot)) ∧
    (∀ sub ∈ levelSeq [t],
      (∃ x ∈ sub, isNode x = true) ∧ dropTrailingLeaves sub = sub ∧ sub ≠ []) ∧
    (∀ lvl : List Tree, (∀ x ∈ lvl, x = Tree.leaf) →
      dropTrailingLeaves lvl = [] ∧ serializeLoop lvl = []) := by
  have hx : ∃ x ∈ [t], isNode x = true := by
    refine ⟨t, by simp, ?_⟩
    cases t with
    | leaf => exact absurd rfl h
    | node e a b => rfl
  have hfix : dropTrailingLeaves [t] = [t] := by
    rw [dropTrailingLeaves]
    rw [if_neg fun hc => h hc.2]
    rfl
  have hinv := levelSeq_invariant [t] hx hfix
  refine ⟨?_, hinv,
    fun lvl hl => ⟨dropTrailingLeaves_all_leaf hl, serializeLoop_all_leaf hl⟩⟩
  have hser : serialize_tree t = serializeLoop [t] := by
    cases t with
    | leaf => exact absurd rfl h
    | node e a b => rfl
  rw [hser]
  exact serializeLoop_eq_levelSeq [t] fun sub hsub => (hinv sub hsub).1

/-- C3 witness at a concrete one-node tree. -/
theorem serializer_level_structure_witness :
    (Tree.node empA .leaf .leaf ≠ Tree.leaf) ∧
    (serialize_tree (Tree.node empA .leaf .leaf) =
      (levelSeq [Tree.node empA .leaf .leaf]).map
        (fun sub => " ".intercalate (sub.map renderSlot)) ∧
    (∀ sub ∈ levelSeq [Tree.node empA .leaf .leaf],
      (∃ x ∈ sub, isNode x = true) ∧ dropTrailingLeaves sub = sub ∧ sub ≠ []) ∧
    (∀ lvl : List Tree, (∀ x ∈ lvl, x = Tree.leaf) →
      dropTrailingLeaves lvl = [] ∧ serializeLoop lvl = [])) :=
  ⟨by decide, serializer_level_structure (Tree.node empA .leaf .leaf) (by decide)⟩

/-- C4: for `N` records with pairwise-distinct keys and any insertion order,
the built tree has exactly `N` nodes; its in-order payload list is a
permutation of the records — every record appears at exactly one node and
the keys stay pairwise distinct, so no node is reachable twice. -/
theorem builder_node_count (records shuffled : List Employee)
    (hkeys : (records.map Employee.key).Nodup) (hperm : shuffled.Perm records) :
    (build_valid_bst_from_list shuffled).size = records.length ∧
    (collect_nodes_inorder (build_valid_bst_from_list shuffled)).Perm records ∧
    (inorderKeys (build_valid_bst_from_list shuffled)).Nodup := by
  have hcp : (collect_nodes_inorder (build_valid_bst_from_list shuffled)).Perm
      shuffled := by
    have hfold := collect_foldl_perm shuffled Tree.leaf
    simpa [collect_nodes_inorder] using hfold
  have hcr := hcp.trans hperm
  refine ⟨?_, hcr, ?_⟩
  · rw [size_eq_length_collect]
    exact hcr.length_eq
  · exact ((hcr.map Employee.key).symm).nodup hkeys

/-- C4 witness at a concrete two-record instance. -/
theorem builder_node_count_witness :
    (([empB, empA].map Employee.key).Nodup ∧ [empA, empB].Perm [empB, empA]) ∧
    ((build_valid_bst_from_list [empA, empB]).size = [empB, empA].length ∧
     (collect_nodes_inorder (build_valid_bst_from_list [empA, empB])).Perm
        [empB, empA] ∧
     (inorderKeys (build_valid_bst_from_list [empA, empB])).Nodup) :=
  ⟨⟨by decide, by decide⟩,
   builder_node_count [empB, empA] [empA, empB] (by decide) (by decide)⟩

/-- C6: the Corruptor is the identity on trees with fewer than two nodes: no
payload swap happens and the exact tree is returned. -/
theorem corruptor_noop_small (t : Tree) (i j : Nat) (h : t.size ≤ 1) :
    violate_bst t i j = t :=
  violate_noop_of_small t i j h

/-- C6 witness at a concrete one-node tree. -/
theorem corruptor_noop_small_witness :
    (Tree.node empA .leaf .leaf).size ≤ 1 ∧
    violate_bst (Tree.node empA .leaf .leaf) 0 1 = Tree.node empA .leaf .leaf :=
  ⟨by decide, corruptor_noop_small (Tree.node empA .leaf .leaf) 0 1 (by decide)⟩

/-- C7: a fixture of exactly one record marked invalid is not corrupted — the
emitted tree is the valid single-node BST, whose in-order key sequence is
trivially increasing — yet the expected-output file text is exactly the line
`false`. -/
theorem single_record_invalid_fixture (idx fuel : Nat) (r : Rng) :
    ∃ (e : Employee) (rend : Rng),
      generate_testcase false idx (fuel + 1) (1, 1) r =
        some ((idx, [e.str], "false\n"), rend) ∧
      (inorderKeys (Tree.node e Tree.leaf Tree.leaf)).Pairwise keyLt ∧
      ∀ rc : Rng, violate_bst_rng (Tree.node e Tree.leaf Tree.leaf) rc =
        (Tree.node e Tree.leaf Tree.leaf, rc) := by
  obtain ⟨e, r2, hgen⟩ := generate_employee_succeeds fuel (randint 1 1 r).2
  refine ⟨e, r2, ?_, ?_, ?_⟩
  · simp only [generate_testcase]
    have hnum : (randint 1 1 r).1 = 1 := by
      simp [randint, Rng.next, Nat.mod_one]
    rw [hnum]
    have hone : genEmployees 1 (fuel + 1) (randint 1 1 r).2 [] =
        some ([e], r2, [e.key]) := by
      show (match generate_employee (fuel + 1) (randint 1 1 r).2 [] with
        | none => none
        | some (e1, r1, used1) =>
          match genEmployees 0 (fuel + 1) r1 used1 with
          | none => none
          | some (es, r3, used3) => some (e1 :: es, r3, used3)) =
        some ([e], r2, [e.key])
      rw [hgen]
      rfl
    rw [hone]
    show some ((idx, serialize_tree (Tree.node e Tree.leaf Tree.leaf),
      "false\n"), r2) = some ((idx, [e.str], "false\n"), r2)
    rw [serialize_single]
  · simp [inorderKeys, collect_nodes_inorder]
  · intro rc
    exact violate_bst_rng_small _ _ (by simp [Tree.size])

/-- Employee produced by `generate_employee 1 rng0 []`. -/
def empGen0 : Employee := ⟨"b", "Engineering", 4, "Executive", 1005⟩

/-- Stream state after `generate_employee 1 rng0 []`. -/
def rngGen0 : Rng := ⟨fun n => n, 6⟩

/-- C5 (amended): whenever the generator returns, the returned key was absent
from `used_keys` and has been inserted; department, id, name (lowercase,
length 1–5), job title and salary all lie in their specified ranges.  (The
sampling order differs from the claim: the name is drawn before the
candidate key on every attempt; job title and salary are drawn after the key
commits.) -/
theorem generator_contract (fuel : Nat) (r : Rng) (used : List (String × Nat))
    (e : Employee) (r2 : Rng) (used2 : List (String × Nat))
    (h : generate_employee fuel r used = some (e, r2, used2)) :
    e.key ∉ used ∧ used2 = e.key :: used ∧ e.department ∈ DEPARTMENTS ∧
    1 ≤ e.id_in_department ∧ e.id_in_department ≤ 200 ∧
    1 ≤ e.name.length ∧ e.name.length ≤ 5 ∧
    (∀ c ∈ e.name.data, c ∈ asciiLowercase) ∧
    e.job_title ∈ JOB_TITLES ∧ 1000 ≤ e.salary ∧ e.salary ≤ 5000 :=
  generate_employee_props fuel r used e r2 used2 h

/-- C5 witness: the contract at a concrete stream and fuel. -/
theorem generator_contract_witness :
    generate_employee 1 rng0 [] = some (empGen0, rngGen0, [("Engineering", 4)]) ∧
    (empGen0.key ∉ ([] : List (String × Nat)) ∧
     [("Engineering", 4)] = empGen0.key :: [] ∧
     empGen0.department ∈ DEPARTMENTS ∧
     1 ≤ empGen0.id_in_department ∧ empGen0.id_in_department ≤ 200 ∧
     1 ≤ empGen0.name.length ∧ empGen0.name.length ≤ 5 ∧
     (∀ c ∈ empGen0.name.data, c ∈ asciiLowercase) ∧
     empGen0.job_title ∈ JOB_TITLES ∧
     1000 ≤ empGen0.salary ∧ empGen0.salary ≤ 5000) :=
  ⟨rfl, generator_contract 1 rng0 [] empGen0 rngGen0 [("Engineering", 4)] rfl⟩

/-- C5 counterexample: with the identity stream and one unit of fuel, the
code's generator and a generator following the claim's sampling order (key
first, then name, job title, salary) return different employees, so the
claimed order is not the code's order. -/
theorem generator_sampling_order_differs :
    (generate_employee 1 rng0 []).map (fun x => x.1) ≠
      (generate_employee_specOrder 1 rng0 []).map (fun x => x.1) := by
  decide

/-- C8: a whole run is a function of the seeded stream alone — equal streams
give byte-identical fixture content — and the fixtures are numbered 9
through 14 starting with the valid ones, so fixture 9 is the first valid
fixture, with verdict lines `true` then `false`. -/
theorem run_deterministic (f g : Nat → Nat) (fuel : Nat)
    (hfg : ∀ n, f n = g n) :
    main_run fuel ⟨f, 0⟩ = main_run fuel ⟨g, 0⟩ ∧
    ∀ r : Rng,
      match main_run fuel r with
      | none => True
      | some l => l.map (fun x => (x.1, x.2.2)) =
          [(9, "true\n"), (10, "true\n"), (11, "true\n"),
           (12, "false\n"), (13, "false\n"), (14, "false\n")] := by
  constructor
  · have hf : f = g := funext hfg
    rw [hf]
  · intro r
    rcases hml : main_run fuel r with _ | l
    · trivial
    · exact main_run_fixtures fuel r l hml

/-- C8 witness: the theorem applied to the identity stream against itself. -/
theorem run_deterministic_witness :
    main_run 1 ⟨fun m => m, 0⟩ = main_run 1 ⟨fun m => m, 0⟩ ∧
    ∀ r : Rng,
      match main_run 1 r with
      | none => True
      | some l => l.map (fun x => (x.1, x.2.2)) =
          [(9, "true\n"), (10, "true\n"), (11, "true\n"),
           (12, "false\n"), (13, "false\n"), (14, "false\n")] :=
  run_deterministic (fun m => m) (fun m => m) 1 (fun _ => rfl)

/-- C9: the concrete two-record scenario: keys `("HR",1)` and `("HR",2)`,
insertion order `[("HR",2), ("HR",1)]` gives root `("HR",2)` with left child
`("HR",1)`, serialized as the root's record line then the left child's;
corruption swaps the two payloads, making the in-order key sequence
`("HR",2)` then `("HR",1)`, which is strictly decreasing. -/
theorem two_record_scenario (e1 e2 : Employee) (i j : Nat)
    (h1d : e1.department = "HR") (h1i : e1.id_in_department = 1)
    (h2d : e2.department = "HR") (h2i : e2.id_in_department = 2)
    (hij : i ≠ j) (hi : i < 2) (hj : j < 2) :
    build_valid_bst_from_list [e2, e1] =
      Tree.node e2 (Tree.node e1 Tree.leaf Tree.leaf) Tree.leaf ∧
    serialize_tree (build_valid_bst_from_list [e2, e1]) = [e2.str, e1.str] ∧
    violate_bst (build_valid_bst_from_list [e2, e1]) i j =
      Tree.node e1 (Tree.node e2 Tree.leaf Tree.leaf) Tree.leaf ∧
    inorderKeys (violate_bst (build_valid_bst_from_list [e2, e1]) i j) =
      [e2.key, e1.key] ∧
    keyLt e1.key e2.key := by
  have hk1 : e1.key = ("HR", 1) := by simp [Employee.key, h1d, h1i]
  have hk2 : e2.key = ("HR", 2) := by simp [Employee.key, h2d, h2i]
  have hklt : keyLt e1.key e2.key := by
    rw [hk1, hk2]
    decide
  have hbuild : build_valid_bst_from_list [e2, e1] =
      Tree.node e2 (Tree.node e1 Tree.leaf Tree.leaf) Tree.leaf := by
    show insert_node (insert_node Tree.leaf e2) e1 = _
    rw [show insert_node Tree.leaf e2 = Tree.node e2 Tree.leaf Tree.leaf from rfl]
    rw [insert_node, if_pos hklt]
    rfl
  have hviol : violate_bst
      (Tree.node e2 (Tree.node e1 Tree.leaf Tree.leaf) Tree.leaf) i j =
      Tree.node e1 (Tree.node e2 Tree.leaf Tree.leaf) Tree.leaf := by
    have hcase : (i = 0 ∧ j = 1) ∨ (i = 1 ∧ j = 0) := by omega
    rcases hcase with ⟨rfl, rfl⟩ | ⟨rfl, rfl⟩
    · rfl
    · rfl
  have hser : serialize_tree
      (Tree.node e2 (Tree.node e1 Tree.leaf Tree.leaf) Tree.leaf) =
      [e2.str, e1.str] := by
    show serializeLoop [Tree.node e2 (Tree.node e1 Tree.leaf Tree.leaf) Tree.leaf]
      = _
    rw [serializeLoop]
    have hcond : (([Tree.node e2 (Tree.node e1 Tree.leaf Tree.leaf)
        Tree.leaf]).map renderSlot).any (fun p => p != "null") = true := by
      rw [any_map_renderSlot]
      simp [isNode]
    rw [if_pos hcond]
    have hnext : dropTrailingLeaves
        ([Tree.node e2 (Tree.node e1 Tree.leaf Tree.leaf) Tree.leaf].flatMap
          childSlots) = [Tree.node e1 Tree.leaf Tree.leaf] := rfl
    rw [hnext]
    rw [show serializeLoop [Tree.node e1 Tree.leaf Tree.leaf] = [e1.str] from
      serialize_single e1]
    rfl
  refine ⟨hbuild, ?_, ?_, ?_, hklt⟩
  · rw [hbuild]
    exact hser
  · rw [hbuild]
    exact hviol
  · rw [hbuild, hviol]
    rfl

/-- C9 witness at two concrete records. -/
theorem two_record_scenario_witness :
    (empA.department = "HR" ∧ empA.id_in_department = 1 ∧
     empB.department = "HR" ∧ empB.id_in_department = 2 ∧
     (0 : Nat) ≠ 1 ∧ (0 : Nat) < 2 ∧ (1 : Nat) < 2) ∧
    (build_valid_bst_from_list [empB, empA] =
        Tree.node empB (Tree.node empA Tree.leaf Tree.leaf) Tree.leaf ∧
     serialize_tree (build_valid_bst_from_list [empB, empA]) =
        [empB.str, empA.str] ∧
     violate_bst (build_valid_bst_from_list [empB, empA]) 0 1 =
        Tree.node empA (Tree.node empB Tree.leaf Tree.leaf) Tree.leaf ∧
     inorderKeys (violate_bst (build_valid_bst_from_list [empB, empA]) 0 1) =
        [empB.key, empA.key] ∧
     keyLt empA.key empB.key) :=
  ⟨⟨rfl, rfl, rfl, rfl, by decide, by decide, by decide⟩,
   two_record_scenario empA empB 0 1 rfl rfl rfl rfl (by decide) (by decide)
     (by decide)⟩

/-- C10: the serialized lines are the space-joins of the per-level token
lists, and the total number of non-`null` tokens over those lists equals the
number of nodes of the tree: every node is rendered exactly once and `null`
tokens stand only for absent slots. -/
theorem serializer_token_count (t : Tree) :
    serialize_tree t =
      (serializeParts (initLevel t)).map (fun parts => " ".intercalate parts) ∧
    ((serializeParts (initLevel t)).map
        (fun parts => parts.countP fun p => p != "null")).sum = t.size := by
  constructor
  · rw [serialize_tree_eq_loop]
    exact serializeLoop_eq_parts (initLevel t)
  · rw [parts_count_sum]
    cases t with
    | leaf => rfl
    | node e a b => simp [initLevel, Tree.size]

end GenTest

